import Mathlib

/-!
Verification development for the go-git commit-graph index and the
path-history resolution engine (`plumbing/object/commitnode.go`,
`plumbing/format/commitgraph` and the `getLastCommitForPaths` engine).

Commit hashes are modelled as `Nat` with `0` playing the role of
`plumbing.ZeroHash`; Go maps are modelled as association lists whose
lookup defaults to the zero hash, mirroring Go's zero-value map reads;
commit times are modelled as `Int`; Go's `[]T` indexing, which panics
on a negative index, is modelled by `goIndex` returning `none` on any
out-of-bounds access, and `GoResult.fatal` records a runtime panic.
-/

set_option maxRecDepth 8000

/-- Error taxonomy of the embedded code: `objectNotFound` is
`plumbing.ErrObjectNotFound`, `parentNotFound` is `object.ErrParentNotFound`,
`dirNotFound` is `object.ErrDirectoryNotFound`, and `decodeErr` stands for
any other tree/blob decode failure. -/
inductive GErr where
  | objectNotFound
  | parentNotFound
  | dirNotFound
  | decodeErr
deriving DecidableEq

/-- Outcome of a Go computation that may panic at runtime: `fatal` is a
panic (e.g. indexing a slice with a negative index), `err` a returned
error value, `ok` a normal return. -/
inductive GoResult (α : Type) where
  | fatal
  | err (e : GErr)
  | ok (val : α)
deriving DecidableEq

instance {ε α : Type} [DecidableEq ε] [DecidableEq α] : DecidableEq (Except ε α) := fun a b =>
  match a, b with
  | .ok x, .ok y => if h : x = y then .isTrue (by rw [h]) else .isFalse (by simp [h])
  | .error x, .error y => if h : x = y then .isTrue (by rw [h]) else .isFalse (by simp [h])
  | .ok _, .error _ => .isFalse (by simp)
  | .error _, .ok _ => .isFalse (by simp)

/-- First-match association-list lookup, the model of a Go map read
(`v, ok := m[k]`). -/
def alook {κ ν : Type} [DecidableEq κ] (m : List (κ × ν)) (k : κ) : Option ν :=
  match m with
  | [] => none
  | (k', v) :: rest => if k' = k then some v else alook rest k

/-- Go map read with the zero value as default: `m[k]` on a
`map[string]plumbing.Hash` yields `plumbing.ZeroHash` (modelled as `0`)
when the key is absent or the map is nil. -/
def mget (m : List (String × Nat)) (k : String) : Nat := (alook m k).getD 0

/-- The guarded map write `if resultNodes[path] == nil { resultNodes[path] = v }`
used by `getLastCommitForPaths` for the result map. -/
def insertIfAbsent (m : List (String × Nat)) (k : String) (v : Nat) : List (String × Nat) :=
  match alook m k with
  | some _ => m
  | none => m ++ [(k, v)]

/-- Go slice indexing `xs[i]` with an `int` index: defined for
`0 ≤ i < len xs`, a runtime panic (here `none`) otherwise. -/
def goIndex {α : Type} (xs : List α) (i : Int) : Option α :=
  if h : 0 ≤ i ∧ i.toNat < xs.length then some (xs.get ⟨i.toNat, h.2⟩) else none

/-- A git tree as observed by the engine after `getCommitTree` focused it on
the query's `treePath`: its own hash (`tree.Hash`) and its entries, looked up
by `tree.FindEntry(path)`. -/
structure TreeObj where
  hash : Nat
  entries : List (String × Nat)
deriving DecidableEq

/-- The environment a `getLastCommitForPaths` invocation runs against: the
`CommitNodeIndex` walker operations, per-commit `getCommitTree` results
(already focused on `treePath`; `.error .dirNotFound` models
`ErrDirectoryNotFound` from `tree.Tree(treePath)`), the per-commit Bloom
filters of the commit-graph file, and `index.Commit` materialization used in
post-processing. -/
structure HistEnv where
  treePath : String
  commitTime : Nat → Int
  numParents : Nat → Nat
  parentNode : Nat → Nat → Except GErr Nat
  tree : Nat → Except GErr TreeObj
  bloom : Nat → Option (String → Bool)
  materialize : Nat → Except GErr Unit

/-- The map built by the loop body of `getFileHashes`: for each requested
path, `tree.FindEntry(path)` on success contributes `entry.Hash`, a missing
entry contributes nothing, and the empty path contributes `tree.Hash`. -/
def buildMap (t : TreeObj) : List String → List (String × Nat)
  | [] => []
  | p :: ps =>
    (if p = "" then [(p, t.hash)]
     else
       match alook t.entries p with
       | some h => [(p, h)]
       | none => []) ++ buildMap t ps

/-- `getFileHashes(c, treePath, paths)`: `ErrDirectoryNotFound` from the
focused tree yields an empty map, any other tree error propagates, otherwise
the per-path entry hashes are collected. -/
def getFileHashes (env : HistEnv) (c : Nat) (paths : List String) :
    Except GErr (List (String × Nat)) :=
  match env.tree c with
  | .error .dirNotFound => .ok []
  | .error e => .error e
  | .ok t => .ok (buildMap t paths)

/-- The fully-qualified path tested against a Bloom filter in
`canSkipCommit`: the path, prefixed by `treePath + "/"` when a sub-tree is
being queried. -/
def fullPathOf (treePath path : String) : String :=
  if treePath = "" then path
  else if path = "" then treePath
  else treePath ++ "/" ++ path

/-- `canSkipCommit`: true when the commit has a Bloom filter in the index and
the filter reports none of the active paths as possibly changed; false when
no filter is available or some test is positive. -/
def canSkipCommit (env : HistEnv) (c : Nat) (paths : List String) : Bool :=
  match env.bloom c with
  | some b => paths.all (fun path => ! b (fullPathOf env.treePath path))
  | none => false

/-- The parent-collection loop of `getLastCommitForPaths`: `ParentNode` is
called for positions `0 ..< numParents` and the loop breaks at the first
error, keeping the parents discovered so far. -/
def collectParentsGo (env : HistEnv) (c : Nat) : Nat → Nat → List Nat
  | 0, _ => []
  | n + 1, i =>
    match env.parentNode c i with
    | .ok p => p :: collectParentsGo env c n (i + 1)
    | .error _ => []

/-- All parents of `c` the engine works with, in declared order. -/
def collectParents (env : HistEnv) (c : Nat) : List Nat :=
  collectParentsGo env c (env.numParents c) 0

/-- The `parentHashes[j], err = getFileHashes(...)` loop with its
`if err != nil break` semantics: on the first failure the failing and all
remaining slots stay nil maps (modelled as `[]`), the error itself is not
propagated, and the returned counter is the length of the successful slice
the per-path accounting ran over. -/
def computeMaps (env : HistEnv) (paths : List String) :
    List Nat → List (List (String × Nat)) × Nat
  | [] => ([], 0)
  | p :: ps =>
    match getFileHashes env p paths with
    | .ok m =>
      let r := computeMaps env paths ps
      (m :: r.1, r.2 + 1)
    | .error _ => (([] : List (String × Nat)) :: ps.map (fun _ => ([] : List (String × Nat))), 0)

/-- `numOfParentsWithPath[i]`: in how many (successfully examined) parents
the path has a non-sentinel hash. -/
def countPresent (okMaps : List (List (String × Nat))) (path : String) : Nat :=
  okMaps.countP (fun m => mget m path != 0)

/-- `pathChanged[i]`: some successfully examined parent holds the path with a
hash differing from the current commit's hash for it. -/
def anyChanged (okMaps : List (List (String × Nat))) (curHashes : List (String × Nat))
    (path : String) : Bool :=
  okMaps.any (fun m => mget m path != 0 && mget m path != mget curHashes path)

/-- `commitAndPaths`: a search-frontier entry. -/
structure CAP where
  commit : Nat
  paths : List String
  hashes : List (String × Nat)
deriving DecidableEq

/-- One iteration of the per-path `switch numOfParentsWithPath[i]` of
`getLastCommitForPaths`: zero parents record the current commit (never
overwriting), one changed parent records it likewise, one unchanged parent or
a merge defers the path to `remainingPaths`. -/
def classifyStep (cur : CAP) (okMaps : List (List (String × Nat)))
    (acc : List (String × Nat) × List String) (path : String) :
    List (String × Nat) × List String :=
  match countPresent okMaps path with
  | 0 => (insertIfAbsent acc.1 path cur.commit, acc.2)
  | 1 =>
    if anyChanged okMaps cur.hashes path then (insertIfAbsent acc.1 path cur.commit, acc.2)
    else (acc.1, acc.2 ++ [path])
  | _ + 2 => (acc.1, acc.2 ++ [path])

/-- The whole per-path classification loop: returns the updated result map
and `remainingPaths`. -/
def classifyPaths (cur : CAP) (okMaps : List (List (String × Nat)))
    (res0 : List (String × Nat)) : List (String × Nat) × List String :=
  cur.paths.foldl (classifyStep cur okMaps) (res0, [])

/-- The push loop at the end of the general case: nothing is pushed when no
path remains; otherwise each not-yet-seen parent gets a frontier entry
carrying the remaining paths it actually contains, with that parent's hash
map. -/
def buildPushes (seen : List Nat) (remaining : List String)
    (parents : List Nat) (maps : List (List (String × Nat))) : List CAP :=
  if remaining.isEmpty then []
  else
    (parents.zip maps).filterMap (fun pm =>
      if seen.contains pm.1 then none
      else some ⟨pm.1, remaining.filter (fun path => mget pm.2 path != 0), pm.2⟩)

/-- The mutable state of one `getLastCommitForPaths` invocation: the
priority-queue contents, the visited set, the `resultNodes` map, and (as a
proof-only ghost) the sequence of commits actually processed. -/
structure SearchState where
  heap : List CAP
  seen : List Nat
  result : List (String × Nat)
  trace : List Nat
deriving DecidableEq

/-- The binary heap's `Pop` under the commit-time comparator: an entry of
maximal commit time is removed (the comparator reports neither argument
smaller whenever times are equal; this model resolves such ties towards the
earliest-pushed entry). -/
def popMax (env : HistEnv) : List CAP → Option (CAP × List CAP)
  | [] => none
  | x :: xs =>
    match popMax env xs with
    | none => some (x, [])
    | some (m, rest) =>
      if env.commitTime m.commit ≤ env.commitTime x.commit then some (x, xs)
      else some (m, x :: rest)

/-- The general case of the loop body: compute the parents' per-path hash
maps (with the swallowed-error break semantics of `computeMaps`), classify
every active path, and push the unvisited parents with the remaining
paths. -/
def processGeneral (env : HistEnv) (cur : CAP) (parents : List Nat)
    (st : SearchState) : SearchState :=
  let mk := computeMaps env cur.paths parents
  let okMaps := mk.1.take mk.2
  let rr := classifyPaths cur okMaps st.result
  { st with result := rr.1, heap := st.heap ++ buildPushes st.seen rr.2 parents mk.1 }

/-- The main loop of `getLastCommitForPaths`, fuelled (`none` = fuel ran
out before the heap emptied). `useBloom = true` is the source code;
`useBloom = false` omits the single-parent Bloom fast path (the
refinement comparison baseline). A fast-path hit with an empty collected
parent list indexes `parents[0]` out of range, a panic (`fatal`). -/
def searchLoop (env : HistEnv) (useBloom : Bool) : Nat → SearchState → Option (GoResult SearchState)
  | 0, _ => none
  | fuel + 1, st =>
    match popMax env st.heap with
    | none => some (.ok st)
    | some (cur, rest) =>
      if st.seen.contains cur.commit then
        searchLoop env useBloom fuel { st with heap := rest }
      else
        let st1 : SearchState :=
          { heap := rest, seen := cur.commit :: st.seen,
            result := st.result, trace := st.trace ++ [cur.commit] }
        let parents := collectParents env cur.commit
        if useBloom && (env.numParents cur.commit == 1) &&
            canSkipCommit env cur.commit cur.paths then
          match parents with
          | [] => some .fatal
          | p :: _ =>
            searchLoop env useBloom fuel
              { st1 with heap := st1.heap ++ [⟨p, cur.paths, cur.hashes⟩] }
        else
          searchLoop env useBloom fuel (processGeneral env cur parents st1)

/-- Observable outcome of one whole `getLastCommitForPaths` call. -/
inductive RunResult where
  | crashed
  | failed (e : GErr)
  | ok (m : List (String × Nat))
deriving DecidableEq

/-- The post-processing loop: every recorded node is materialized through
`index.Commit`; the first failure aborts the whole call. -/
def postGo (env : HistEnv) (acc : List (String × Nat)) : List (String × Nat) → RunResult
  | [] => .ok acc
  | (p, h) :: rest =>
    match env.materialize h with
    | .ok _ => postGo env (acc ++ [(p, h)]) rest
    | .error e => .failed e

/-- `getLastCommitForPaths(index, c, treePath, paths)`: initial hashes at the
starting commit (failure here is returned), the fuelled main loop, then
post-processing. -/
def getLastCommitForPaths (env : HistEnv) (useBloom : Bool) (fuel : Nat)
    (c : Nat) (paths : List String) : Option RunResult :=
  match getFileHashes env c paths with
  | .error e => some (.failed e)
  | .ok initialHashes =>
    match searchLoop env useBloom fuel ⟨[⟨c, paths, initialHashes⟩], [], [], []⟩ with
    | none => none
    | some .fatal => some .crashed
    | some (.err e) => some (.failed e)
    | some (.ok st) => some (postGo env [] st.result)

/-- The sequence of commits a run actually processes (pops that were not
skipped as already visited), in processing order. -/
def searchTraceOf (env : HistEnv) (useBloom : Bool) (fuel : Nat)
    (c : Nat) (paths : List String) : Option (List Nat) :=
  match getFileHashes env c paths with
  | .error _ => none
  | .ok initialHashes =>
    match searchLoop env useBloom fuel ⟨[⟨c, paths, initialHashes⟩], [], [], []⟩ with
    | some (.ok st) => some st.trace
    | _ => none

/-- The hash identifying the content of path `s` at commit `c` as the engine
observes it: the focused tree's entry hash (the tree's own hash for the empty
path), with the zero sentinel for an absent path or an unresolvable tree. -/
def contentAt (env : HistEnv) (c : Nat) (s : String) : Nat :=
  match env.tree c with
  | .ok t => if s = "" then t.hash else (alook t.entries s).getD 0
  | .error _ => 0

/-- The no-false-negative guarantee of the per-commit Bloom filters: whenever
a commit carries a filter and a path's content differs from its first parent,
the filter answers true for that (fully qualified) path. -/
def bloomSound (env : HistEnv) : Prop :=
  ∀ c b p s, env.bloom c = some b → env.parentNode c 0 = .ok p →
    contentAt env c s ≠ contentAt env p s → b (fullPathOf env.treePath s) = true

/-- Remove from a tree every entry whose effective (first-match) hash is the
zero sentinel: the tree in which those paths genuinely do not exist. -/
def stripTree (t : TreeObj) : TreeObj :=
  { hash := t.hash,
    entries := t.entries.filter (fun e => alook t.entries e.1 != some 0) }

/-- The same environment with every zero-hash tree entry removed. -/
def stripEnv (env : HistEnv) : HistEnv :=
  { env with tree := fun c => (env.tree c).map stripTree }

/-- Observational equality of two engine hash maps: the engine reads its
maps only through `mget` (a Go map read defaulting to the zero hash), so
maps agreeing under `mget` are interchangeable. -/
def mapsEqD (m1 m2 : List (String × Nat)) : Prop := ∀ s, mget m1 s = mget m2 s

/-- Correspondence of frontier entries across the zero-stripping
transformation: same commit, same active paths, observationally equal
hashes. -/
def capRel (c1 c2 : CAP) : Prop :=
  c1.commit = c2.commit ∧ c1.paths = c2.paths ∧ mapsEqD c1.hashes c2.hashes

/-- Correspondence of whole search states: heaps pointwise related, the
visited set, result map and trace strictly equal. -/
def stRel (s1 s2 : SearchState) : Prop :=
  List.Forall₂ capRel s1.heap s2.heap ∧ s1.seen = s2.seen ∧
    s1.result = s2.result ∧ s1.trace = s2.trace

/-- Correspondence of loop outcomes across the zero-stripping
transformation. -/
def outRel : Option (GoResult SearchState) → Option (GoResult SearchState) → Prop
  | none, none => True
  | some .fatal, some .fatal => True
  | some (.err e1), some (.err e2) => e1 = e2
  | some (.ok s1), some (.ok s2) => stRel s1 s2
  | _, _ => False

/-! ## The commit-graph `MemoryIndex` (`plumbing/format/commitgraph`) -/

/-- `commitgraph.Node`. -/
structure CGNode where
  treeHash : Nat
  parentHashes : List Nat
  parentIndexes : List Int
  whenTime : Int
deriving DecidableEq

/-- `commitgraph.MemoryIndex`: dense node storage plus the hash-to-position
map (modelled as an association list whose most recent write is consulted
first, like a Go map). -/
structure MemoryIndex where
  commitData : List CGNode
  indexMap : List (Nat × Nat)
deriving DecidableEq

/-- `MemoryIndex.GetIndexByHash`. -/
def MemoryIndex.GetIndexByHash (mi : MemoryIndex) (h : Nat) : Except GErr Nat :=
  match alook mi.indexMap h with
  | some i => .ok i
  | none => .error .objectNotFound

/-- `MemoryIndex.GetNodeByIndex`: guarded only against `i >= len`, so a
negative position reaches the slice indexing and panics. -/
def MemoryIndex.GetNodeByIndex (mi : MemoryIndex) (i : Int) : GoResult CGNode :=
  if (mi.commitData.length : Int) ≤ i then .err .objectNotFound
  else
    match goIndex mi.commitData i with
    | some n => .ok n
    | none => .fatal

/-- The parent-resolution loop of `MemoryIndex.Add`: each parent hash is
resolved with `GetIndexByHash` and the first failure is returned. -/
def resolveParents (mi : MemoryIndex) : List Nat → Except GErr (List Nat)
  | [] => .ok []
  | p :: ps =>
    match mi.GetIndexByHash p with
    | .error e => .error e
    | .ok i =>
      match resolveParents mi ps with
      | .error e => .error e
      | .ok is => .ok (i :: is)

/-- `MemoryIndex.Add`: resolve all parent hashes (failing with the lookup
error if any is absent), store the node with its `ParentIndexes` populated at
the next free position, and record the hash-to-position mapping. -/
def MemoryIndex.Add (mi : MemoryIndex) (hash : Nat) (node : CGNode) :
    Except GErr MemoryIndex :=
  match resolveParents mi node.parentHashes with
  | .error e => .error e
  | .ok idxs =>
    .ok { commitData := mi.commitData ++ [{ node with parentIndexes := idxs.map Int.ofNat }],
          indexMap := (hash, mi.commitData.length) :: mi.indexMap }

/-- A sequence of `Add` calls, stopping at the first failure. -/
def addAll (mi : MemoryIndex) : List (Nat × CGNode) → Except GErr MemoryIndex
  | [] => .ok mi
  | (h, n) :: rest =>
    match mi.Add h n with
    | .error e => .error e
    | .ok mi' => addAll mi' rest

/-! ## The graph-backed walker (`graphCommitNodeIndex`) -/

/-- A fully decoded `object.Commit`, reduced to the fields the walker
consults. -/
structure Commit0 where
  hash : Nat
  treeHash : Nat
  parentHashes : List Nat
  whenTime : Int
deriving DecidableEq

/-- `object.CommitNode`: either a `graphCommitNode` (index-backed) or a fully
decoded commit. -/
inductive CommitNode where
  | graph (hash : Nat) (index : Int) (node : CGNode)
  | commit (c : Commit0)
deriving DecidableEq

/-- `graphCommitNodeIndex`: the commit-graph index plus the object store
(`GetCommit` by hash, `none` when the store cannot supply the commit). -/
structure GCNIndex where
  commitGraph : MemoryIndex
  store : Nat → Option Commit0

/-- `graphCommitNodeIndex.ParentNode`: index-backed nodes resolve the parent
by its recorded position; decoded commits probe the graph index by the
parent's hash first and fall back to `GetCommit` from the store on a miss.
Out-of-range `i` is `ErrParentNotFound`; negative `i` passes the guard and
panics on the slice indexing. -/
def ParentNode (gci : GCNIndex) (node : CommitNode) (i : Int) : GoResult CommitNode :=
  match node with
  | .graph _ _ n =>
    if n.parentIndexes.length = 0 ∨ (n.parentIndexes.length : Int) ≤ i then .err .parentNotFound
    else
      match goIndex n.parentIndexes i with
      | none => .fatal
      | some pidx =>
        match gci.commitGraph.GetNodeByIndex pidx with
        | .fatal => .fatal
        | .err e => .err e
        | .ok parent =>
          match goIndex n.parentHashes i with
          | none => .fatal
          | some ph => .ok (.graph ph pidx parent)
  | .commit co =>
    if co.parentHashes.length = 0 ∨ (co.parentHashes.length : Int) ≤ i then .err .parentNotFound
    else
      match goIndex co.parentHashes i with
      | none => .fatal
      | some ph =>
        match gci.commitGraph.GetIndexByHash ph with
        | .ok pidx =>
          match gci.commitGraph.GetNodeByIndex (pidx : Int) with
          | .fatal => .fatal
          | .err e => .err e
          | .ok parent => .ok (.graph ph (pidx : Int) parent)
        | .error _ =>
          match gci.store ph with
          | some c => .ok (.commit c)
          | none => .err .objectNotFound

/-! ## Concrete instances used by counterexamples and witnesses -/

/-- A two-commit chain: start 1 (time 2) with parent 2 (time 1); the parent
commit's tree fails to decode. Path "f" has hash 7 at the start. -/
def envC1 : HistEnv :=
  { treePath := ""
    commitTime := fun c => if c = 1 then 2 else 1
    numParents := fun c => if c = 1 then 1 else 0
    parentNode := fun c i => if c = 1 ∧ i = 0 then .ok 2 else .error .objectNotFound
    tree := fun c => if c = 1 then .ok ⟨9, [("f", 7)]⟩ else .error .decodeErr
    bloom := fun _ => none
    materialize := fun _ => .ok () }

/-- A two-commit chain in which the parent's commit time (5) exceeds the
child's (1): git commit times do not have to respect ancestry. -/
def envC2 : HistEnv :=
  { treePath := ""
    commitTime := fun c => if c = 1 then 1 else 5
    numParents := fun c => if c = 1 then 1 else 0
    parentNode := fun c i => if c = 1 ∧ i = 0 then .ok 2 else .error .objectNotFound
    tree := fun _ => .ok ⟨9, [("x", 7)]⟩
    bloom := fun _ => none
    materialize := fun _ => .ok () }

/-- The same chain with ancestry-monotone times (child 5, parent 3). -/
def envC2w : HistEnv :=
  { treePath := ""
    commitTime := fun c => if c = 1 then 5 else 3
    numParents := fun c => if c = 1 then 1 else 0
    parentNode := fun c i => if c = 1 ∧ i = 0 then .ok 2 else .error .objectNotFound
    tree := fun _ => .ok ⟨9, [("x", 7)]⟩
    bloom := fun _ => none
    materialize := fun _ => .ok () }

/-- A two-commit chain whose two trees are identical and empty; commit 1
carries an (honest, all-negative) Bloom filter. The queried path "x" exists
in neither tree. -/
def envC3 : HistEnv :=
  { treePath := ""
    commitTime := fun c => if c = 1 then 2 else 1
    numParents := fun c => if c = 1 then 1 else 0
    parentNode := fun c i => if c = 1 ∧ i = 0 then .ok 2 else .error .objectNotFound
    tree := fun _ => .ok ⟨9, []⟩
    bloom := fun c => if c = 1 then some (fun _ => false) else none
    materialize := fun _ => .ok () }

/-- A two-commit chain whose two trees both contain "x" with hash 7; commit 1
carries an (honest, all-negative) Bloom filter. -/
def envC3w : HistEnv :=
  { treePath := ""
    commitTime := fun c => if c = 1 then 2 else 1
    numParents := fun c => if c = 1 then 1 else 0
    parentNode := fun c i => if c = 1 ∧ i = 0 then .ok 2 else .error .objectNotFound
    tree := fun _ => .ok ⟨9, [("x", 7)]⟩
    bloom := fun c => if c = 1 then some (fun _ => false) else none
    materialize := fun _ => .ok () }

/-- A merge: commit 1 has parents 2 and 3, and path "x" is present with hash
7 in both parents while the merge holds hash 8. -/
def envC4w : HistEnv :=
  { treePath := ""
    commitTime := fun c => if c = 1 then 3 else 1
    numParents := fun c => if c = 1 then 2 else 0
    parentNode := fun c i =>
      if c = 1 ∧ i = 0 then .ok 2
      else if c = 1 ∧ i = 1 then .ok 3
      else .error .objectNotFound
    tree := fun c => if c = 1 then .ok ⟨9, [("x", 8)]⟩ else .ok ⟨9, [("x", 7)]⟩
    bloom := fun _ => none
    materialize := fun _ => .ok () }

/-- A commit-graph node with no parents. -/
def nodeNoParents : CGNode := ⟨0, [], [], 0⟩

/-- The index obtained from one successful `Add(1, nodeNoParents)` on an
empty `MemoryIndex`. -/
def miOne : MemoryIndex := ⟨[nodeNoParents], [(1, 0)]⟩

/-- The index obtained from a second successful `Add(1, nodeNoParents)`. -/
def miTwo : MemoryIndex := ⟨[nodeNoParents, nodeNoParents], [(1, 1), (1, 0)]⟩

/-- A commit-graph node stored in `gciW`'s fast index. -/
def gNode : CGNode := ⟨3, [], [], 0⟩

/-- A walker whose fast index knows hash 10 (at position 0) and whose object
store can decode hash 20. -/
def gciW : GCNIndex :=
  ⟨⟨[gNode], [(10, 0)]⟩, fun h => if h = 20 then some ⟨20, 4, [], 0⟩ else none⟩

/-- A fully decoded commit with parents 10 (in the fast index) and 20 (only
in the object store). -/
def coW : Commit0 := ⟨99, 5, [10, 20], 0⟩

/-! ## Association-list lemmas -/

theorem alook_append_some {κ ν : Type} [DecidableEq κ] {m : List (κ × ν)} {k : κ} {v : ν}
    (l : List (κ × ν)) (h : alook m k = some v) : alook (m ++ l) k = some v := by
  induction m with
  | nil => simp [alook] at h
  | cons hd tl ih =>
    obtain ⟨k', v'⟩ := hd
    simp only [alook, List.cons_append] at h ⊢
    split at h
    · next heq => simpa [heq] using h
    · next hne => rw [if_neg hne]; exact ih h

theorem alook_mem {κ ν : Type} [DecidableEq κ] {m : List (κ × ν)} {k : κ} {v : ν}
    (h : alook m k = some v) : (k, v) ∈ m := by
  induction m with
  | nil => simp [alook] at h
  | cons hd tl ih =>
    obtain ⟨k', v'⟩ := hd
    simp only [alook] at h
    split at h
    · next heq => injection h with h'; subst heq; subst h'; exact List.mem_cons_self _ _
    · exact List.mem_cons_of_mem _ (ih h)

theorem insertIfAbsent_preserves {m : List (String × Nat)} {path : String} {h : Nat}
    (k : String) (v : Nat) (hl : alook m path = some h) :
    alook (insertIfAbsent m k v) path = some h := by
  unfold insertIfAbsent
  cases hk : alook m k with
  | some _ => exact hl
  | none => exact alook_append_some _ hl

/-! ## C9: `GetNodeByIndex` out-of-range behavior -/

/-- C9 counterexample: `GetNodeByIndex (-1)` on a one-node index panics on
the slice access (the guard only checks the upper bound), so an out-of-range
negative position is a fatal failure, not NotFound. -/
theorem getNodeByIndex_negative_counterexample :
    MemoryIndex.GetNodeByIndex ⟨[nodeNoParents], [(1, 0)]⟩ (-1) = .fatal ∧
    MemoryIndex.GetNodeByIndex ⟨[nodeNoParents], [(1, 0)]⟩ (-1) ≠ .err .objectNotFound := by
  decide

/-- C9 (amended): `GetNodeByIndex` returns the stored node for in-range
non-negative positions and NotFound for any position at or beyond the current
length, but a negative position is not guarded and is a fatal runtime
failure rather than NotFound. -/
theorem getNodeByIndex_range (mi : MemoryIndex) (i : Int) :
    ((mi.commitData.length : Int) ≤ i → mi.GetNodeByIndex i = .err .objectNotFound) ∧
    (∀ (_h0 : 0 ≤ i) (hl : i.toNat < mi.commitData.length),
      mi.GetNodeByIndex i = .ok (mi.commitData.get ⟨i.toNat, hl⟩)) ∧
    (i < 0 → mi.GetNodeByIndex i = .fatal) := by
  refine ⟨fun h => ?_, fun h0 hl => ?_, fun h => ?_⟩
  · simp [MemoryIndex.GetNodeByIndex, h]
  · have hni : ¬ (mi.commitData.length : Int) ≤ i := by omega
    simp only [MemoryIndex.GetNodeByIndex, if_neg hni, goIndex, dif_pos (And.intro h0 hl)]
  · have hni : ¬ (mi.commitData.length : Int) ≤ i := by omega
    have hno : ¬ (0 ≤ i ∧ i.toNat < mi.commitData.length) := by omega
    simp only [MemoryIndex.GetNodeByIndex, if_neg hni, goIndex, dif_neg hno]

/-- Witness for C9's amended theorem at a concrete index and position. -/
theorem getNodeByIndex_range_witness :
    MemoryIndex.GetNodeByIndex ⟨[nodeNoParents], [(1, 0)]⟩ 5 = .err .objectNotFound :=
  (getNodeByIndex_range ⟨[nodeNoParents], [(1, 0)]⟩ 5).1 (by decide)

/-! ## C7: stability of assigned positions -/

/-- C7 counterexample: adding hash 1 twice succeeds both times and moves the
position `GetIndexByHash` reports for it from 0 to 1. -/
theorem position_reassigned_counterexample :
    addAll ⟨[], []⟩ [(1, nodeNoParents)] = .ok miOne ∧
    MemoryIndex.GetIndexByHash miOne 1 = .ok 0 ∧
    addAll miOne [(1, nodeNoParents)] = .ok miTwo ∧
    MemoryIndex.GetIndexByHash miTwo 1 = .ok 1 ∧ (0 : Nat) ≠ 1 := by decide

theorem add_preserves_lookup {mi mi' : MemoryIndex} {hash : Nat} {node : CGNode}
    {h i : Nat} (hne : hash ≠ h)
    (hAdd : mi.Add hash node = .ok mi') (hi : mi.GetIndexByHash h = .ok i) :
    mi'.GetIndexByHash h = .ok i := by
  unfold MemoryIndex.Add at hAdd
  cases hres : resolveParents mi node.parentHashes with
  | error e => rw [hres] at hAdd; cases hAdd
  | ok idxs =>
    rw [hres] at hAdd
    injection hAdd with hAdd
    subst hAdd
    simpa [MemoryIndex.GetIndexByHash, alook, hne] using hi

/-- C7 (amended): for any sequence of successful `Add` calls none of which
re-adds the given hash, the position `GetIndexByHash` reports for it never
changes after it is first assigned (re-adding an existing hash reassigns its
position, as the counterexample shows). -/
theorem getIndexByHash_stable (ops : List (Nat × CGNode)) :
    ∀ (mi mi' : MemoryIndex) (h i : Nat),
      (∀ op ∈ ops, op.1 ≠ h) →
      mi.GetIndexByHash h = .ok i →
      addAll mi ops = .ok mi' →
      mi'.GetIndexByHash h = .ok i := by
  induction ops with
  | nil =>
    intro mi mi' h i _ hi hrun
    injection hrun with h'
    exact h' ▸ hi
  | cons op rest ih =>
    intro mi mi' h i hfresh hi hrun
    obtain ⟨oh, onode⟩ := op
    simp only [addAll] at hrun
    cases hA : mi.Add oh onode with
    | error e => rw [hA] at hrun; cases hrun
    | ok mim =>
      rw [hA] at hrun
      exact ih mim mi' h i (fun o ho => hfresh o (List.mem_cons_of_mem _ ho))
        (add_preserves_lookup (hfresh (oh, onode) (List.mem_cons_self _ _)) hA hi) hrun

/-- Witness for C7's amended theorem: adding a fresh hash 2 preserves the
position of hash 1. -/
theorem getIndexByHash_stable_witness :
    MemoryIndex.GetIndexByHash ⟨[nodeNoParents, nodeNoParents], [(2, 1), (1, 0)]⟩ 1 = .ok 0 :=
  getIndexByHash_stable [(2, nodeNoParents)] miOne
    ⟨[nodeNoParents, nodeNoParents], [(2, 1), (1, 0)]⟩ 1 0
    (by decide) (by decide) (by decide)

/-! ## C6: the `Add` contract -/

theorem resolveParents_ok_of_present (mi : MemoryIndex) :
    ∀ (l : List Nat), (∀ p ∈ l, (alook mi.indexMap p).isSome) →
      ∃ idxs, resolveParents mi l = .ok idxs ∧ idxs.length = l.length ∧
        ∀ k (hk : k < l.length) (hk' : k < idxs.length),
          mi.GetIndexByHash (l.get ⟨k, hk⟩) = .ok (idxs.get ⟨k, hk'⟩) := by
  intro l
  induction l with
  | nil => exact fun _ => ⟨[], rfl, rfl, fun k hk => absurd hk (by simp)⟩
  | cons p ps ih =>
    intro hall
    have hp := hall p (List.mem_cons_self _ _)
    cases hl : alook mi.indexMap p with
    | none => rw [hl] at hp; simp at hp
    | some j =>
      obtain ⟨idxs, hres, hlen, hpt⟩ := ih (fun q hq => hall q (List.mem_cons_of_mem _ hq))
      refine ⟨j :: idxs, ?_, by simp [hlen], ?_⟩
      · simp only [resolveParents, MemoryIndex.GetIndexByHash, hl, hres]
      · intro k hk hk'
        cases k with
        | zero => simp [MemoryIndex.GetIndexByHash, hl]
        | succ k => exact hpt k (by simpa using hk) (by simpa using hk')

theorem resolveParents_err_of_missing (mi : MemoryIndex) :
    ∀ (l : List Nat), (∃ p ∈ l, alook mi.indexMap p = none) →
      resolveParents mi l = .error .objectNotFound := by
  intro l
  induction l with
  | nil => rintro ⟨p, hp, _⟩; simp at hp
  | cons q ps ih =>
    rintro ⟨p, hp, hnone⟩
    rcases List.mem_cons.mp hp with heq | hmem
    · subst heq
      simp only [resolveParents, MemoryIndex.GetIndexByHash, hnone]
    · cases hq : alook mi.indexMap q with
      | none => simp only [resolveParents, MemoryIndex.GetIndexByHash, hq]
      | some j =>
        have htail := ih ⟨p, hmem, hnone⟩
        simp only [resolveParents, MemoryIndex.GetIndexByHash, hq, htail]

/-- C6 counterexample: re-adding hash 1 with itself as declared parent
succeeds and stores `parentIndexes = [0]` (its position at the moment of the
call), but `GetIndexByHash 1` after the `Add` returns 1, so the stored index
is not the position `GetIndexByHash` returns afterwards. -/
theorem add_self_parent_counterexample :
    MemoryIndex.Add miOne 1 ⟨0, [1], [], 0⟩ =
      .ok ⟨[nodeNoParents, ⟨0, [1], [0], 0⟩], [(1, 1), (1, 0)]⟩ ∧
    MemoryIndex.GetIndexByHash ⟨[nodeNoParents, ⟨0, [1], [0], 0⟩], [(1, 1), (1, 0)]⟩ 1 =
      .ok 1 ∧
    ¬ ((0 : Int) = 1) := by decide

/-- C6 (amended): `Add` fails with NotFound when some declared parent hash is
absent from the index; when all are present it succeeds and the stored node's
`parentIndexes` mirrors `parentHashes` in order via the positions
`GetIndexByHash` returned at the moment of the `Add` — which are also the
positions returned after the `Add` provided the added hash is not itself
among the declared parents. -/
theorem memoryIndex_add_spec (mi : MemoryIndex) (hash : Nat) (node : CGNode) :
    ((∃ p ∈ node.parentHashes, alook mi.indexMap p = none) →
      mi.Add hash node = .error .objectNotFound) ∧
    ((∀ p ∈ node.parentHashes, (alook mi.indexMap p).isSome) →
      ∃ (mi' : MemoryIndex) (idxs : List Nat),
        mi.Add hash node = .ok mi' ∧
        mi'.commitData = mi.commitData ++
          [{ node with parentIndexes := idxs.map Int.ofNat }] ∧
        idxs.length = node.parentHashes.length ∧
        (∀ k (hk : k < node.parentHashes.length) (hk' : k < idxs.length),
          mi.GetIndexByHash (node.parentHashes.get ⟨k, hk⟩) = .ok (idxs.get ⟨k, hk'⟩)) ∧
        (hash ∉ node.parentHashes →
          ∀ k (hk : k < node.parentHashes.length) (hk' : k < idxs.length),
            mi'.GetIndexByHash (node.parentHashes.get ⟨k, hk⟩) = .ok (idxs.get ⟨k, hk'⟩))) := by
  constructor
  · intro hmiss
    have hres := resolveParents_err_of_missing mi node.parentHashes hmiss
    simp only [MemoryIndex.Add, hres]
  · intro hall
    obtain ⟨idxs, hres, hlen, hpt⟩ := resolveParents_ok_of_present mi node.parentHashes hall
    refine ⟨⟨mi.commitData ++ [{ node with parentIndexes := idxs.map Int.ofNat }],
      (hash, mi.commitData.length) :: mi.indexMap⟩, idxs, ?_, rfl, hlen, hpt, ?_⟩
    · simp only [MemoryIndex.Add, hres]
    · intro hnotmem k hk hk'
      have hne : hash ≠ node.parentHashes[k] :=
        fun he => hnotmem (he ▸ List.getElem_mem _)
      have hbase := hpt k hk hk'
      simp only [MemoryIndex.GetIndexByHash, alook, List.get_eq_getElem] at hbase ⊢
      rw [if_neg hne]
      exact hbase

/-- Witness for C6's amended theorem: adding hash 2 with the present parent 1
to `miOne`. -/
theorem memoryIndex_add_spec_witness :
    ∃ (mi' : MemoryIndex) (idxs : List Nat),
      MemoryIndex.Add miOne 2 ⟨0, [1], [], 0⟩ = .ok mi' ∧
      mi'.commitData = miOne.commitData ++
        [{ (⟨0, [1], [], 0⟩ : CGNode) with parentIndexes := idxs.map Int.ofNat }] ∧
      idxs.length = ([1] : List Nat).length ∧
      (∀ k (hk : k < ([1] : List Nat).length) (hk' : k < idxs.length),
        miOne.GetIndexByHash (([1] : List Nat).get ⟨k, hk⟩) = .ok (idxs.get ⟨k, hk'⟩)) ∧
      ((2 : Nat) ∉ ([1] : List Nat) →
        ∀ k (hk : k < ([1] : List Nat).length) (hk' : k < idxs.length),
          mi'.GetIndexByHash (([1] : List Nat).get ⟨k, hk⟩) = .ok (idxs.get ⟨k, hk'⟩)) :=
  (memoryIndex_add_spec miOne 2 ⟨0, [1], [], 0⟩).2 (by decide)

/-! ## C8: the decoded-commit fallback of `ParentNode` -/

/-- C8: for a decoded (non-index-backed) commit and an in-range parent
position, `ParentNode` looks the parent hash up in the graph index first: a
hit yields the index-backed node at the recorded position, a miss falls back
to decoding the commit from the object store, and an index miss is never
reported as the missing-parent error. (The index is assumed well-formed:
every recorded position is in range of the node storage.) -/
theorem parentNode_fallback (gci : GCNIndex) (co : Commit0) (i : Int)
    (hwf : ∀ pr ∈ gci.commitGraph.indexMap, pr.2 < gci.commitGraph.commitData.length)
    (h0 : 0 ≤ i) (hi : i.toNat < co.parentHashes.length) :
    (∀ pidx, gci.commitGraph.GetIndexByHash (co.parentHashes.get ⟨i.toNat, hi⟩) = .ok pidx →
      ∃ hp : pidx < gci.commitGraph.commitData.length,
        ParentNode gci (.commit co) i =
          .ok (.graph (co.parentHashes.get ⟨i.toNat, hi⟩) (pidx : Int)
            (gci.commitGraph.commitData.get ⟨pidx, hp⟩))) ∧
    (gci.commitGraph.GetIndexByHash (co.parentHashes.get ⟨i.toNat, hi⟩) =
        .error .objectNotFound →
      ParentNode gci (.commit co) i =
        (match gci.store (co.parentHashes.get ⟨i.toNat, hi⟩) with
         | some c => .ok (.commit c)
         | none => .err .objectNotFound)) ∧
    ParentNode gci (.commit co) i ≠ .err .parentNotFound := by
  have hguard : ¬ (co.parentHashes.length = 0 ∨ (co.parentHashes.length : Int) ≤ i) := by
    push_neg
    omega
  have hgo : goIndex co.parentHashes i = some (co.parentHashes.get ⟨i.toNat, hi⟩) := by
    simp only [goIndex, dif_pos (And.intro h0 hi)]
  have hnode : ∀ (pidx : Nat),
      gci.commitGraph.GetIndexByHash (co.parentHashes.get ⟨i.toNat, hi⟩) = .ok pidx →
      ∃ hp : pidx < gci.commitGraph.commitData.length,
        gci.commitGraph.GetNodeByIndex (pidx : Int) =
          .ok (gci.commitGraph.commitData.get ⟨pidx, hp⟩) := by
    intro pidx hpidx
    have halk : alook gci.commitGraph.indexMap (co.parentHashes.get ⟨i.toNat, hi⟩) =
        some pidx := by
      unfold MemoryIndex.GetIndexByHash at hpidx
      cases hcase : alook gci.commitGraph.indexMap (co.parentHashes.get ⟨i.toNat, hi⟩) with
      | none => rw [hcase] at hpidx; cases hpidx
      | some j => rw [hcase] at hpidx; injection hpidx with hj; rw [hj]
    have hp : pidx < gci.commitGraph.commitData.length := hwf _ (alook_mem halk)
    refine ⟨hp, ?_⟩
    have := (getNodeByIndex_range gci.commitGraph (pidx : Int)).2.1 (by omega)
      (by simpa using hp)
    simpa using this
  refine ⟨?_, ?_, ?_⟩
  · intro pidx hpidx
    obtain ⟨hp, hn⟩ := hnode pidx hpidx
    refine ⟨hp, ?_⟩
    simp only [ParentNode, if_neg hguard, hgo, hpidx, hn]
  · intro hmiss
    simp only [ParentNode, if_neg hguard, hgo, hmiss]
  · cases hcase : gci.commitGraph.GetIndexByHash (co.parentHashes.get ⟨i.toNat, hi⟩) with
    | ok pidx =>
      obtain ⟨hp, hn⟩ := hnode pidx hcase
      simp only [ParentNode, if_neg hguard, hgo, hcase, hn]
      intro hcontra
      cases hcontra
    | error e =>
      have he : e = .objectNotFound := by
        unfold MemoryIndex.GetIndexByHash at hcase
        cases hcase2 : alook gci.commitGraph.indexMap (co.parentHashes.get ⟨i.toNat, hi⟩) with
        | none => rw [hcase2] at hcase; injection hcase with h'; exact h'.symm
        | some j => rw [hcase2] at hcase; cases hcase
      subst he
      simp only [ParentNode, if_neg hguard, hgo, hcase]
      cases gci.store (co.parentHashes.get ⟨i.toNat, hi⟩) with
      | some c => intro hcontra; cases hcontra
      | none => intro hcontra; injection hcontra with h'; cases h'

/-- Witness for C8: parent position 1 of `coW` (hash 20) misses `gciW`'s
index, falls back to the store, and is not a missing-parent error. -/
theorem parentNode_fallback_witness :
    ParentNode gciW (.commit coW) 1 ≠ .err .parentNotFound :=
  (parentNode_fallback gciW coW 1 (by decide) (by decide) (by decide)).2.2

/-! ## C1: the swallowed parent decode error -/

/-- C1: at `envC1` the parent commit's tree fails to decode, so the parent's
per-path hash computation fails with a decode error; yet the whole search
returns a successful (and bogus) partial mapping crediting the start commit,
because the `err` set inside the `parentHashes[j]` loop is only used to
`break` and is never returned. -/
theorem parent_decode_error_swallowed :
    getFileHashes envC1 2 ["f"] = .error .decodeErr ∧
    getLastCommitForPaths envC1 true 10 1 ["f"] = some (.ok [("f", 1)]) := by decide

/-! ## C5: result entries are never overwritten -/

theorem classifyStep_fst_preserves (cur : CAP) (okMaps : List (List (String × Nat)))
    (acc : List (String × Nat) × List String) (p path : String) (h : Nat)
    (hl : alook acc.1 path = some h) :
    alook (classifyStep cur okMaps acc p).1 path = some h := by
  unfold classifyStep
  split
  · exact insertIfAbsent_preserves _ _ hl
  · split
    · exact insertIfAbsent_preserves _ _ hl
    · exact hl
  · exact hl

theorem classify_foldl_preserves (cur : CAP) (okMaps : List (List (String × Nat)))
    (path : String) (h : Nat) :
    ∀ (ps : List String) (acc : List (String × Nat) × List String),
      alook acc.1 path = some h →
      alook (ps.foldl (classifyStep cur okMaps) acc).1 path = some h := by
  intro ps
  induction ps with
  | nil => exact fun acc hl => hl
  | cons p ps ih =>
    intro acc hl
    exact ih _ (classifyStep_fst_preserves cur okMaps acc p path h hl)

theorem processGeneral_result_preserves (env : HistEnv) (cur : CAP) (parents : List Nat)
    (st : SearchState) (path : String) (h : Nat)
    (hl : alook st.result path = some h) :
    alook (processGeneral env cur parents st).result path = some h :=
  classify_foldl_preserves cur _ path h cur.paths (st.result, []) hl

/-- C5: once the search has recorded a commit for a path in the result map,
no later step of the same invocation overwrites that entry (both recording
sites are guarded by `resultNodes[path] == nil`); in particular the
zero-parents case records the current commit only when no answer for the
path exists yet. -/
theorem result_never_overwritten (env : HistEnv) (useBloom : Bool) :
    ∀ (fuel : Nat) (st st' : SearchState) (path : String) (h : Nat),
      alook st.result path = some h →
      searchLoop env useBloom fuel st = some (.ok st') →
      alook st'.result path = some h := by
  intro fuel
  induction fuel with
  | zero => intro st st' path h _ hrun; cases hrun
  | succ fuel ih =>
    intro st st' path h hrec hrun
    simp only [searchLoop] at hrun
    cases hpop : popMax env st.heap with
    | none =>
      rw [hpop] at hrun
      obtain rfl : st = st' := by injection hrun with h1; injection h1
      exact hrec
    | some cr =>
      obtain ⟨cur, rest⟩ := cr
      rw [hpop] at hrun
      simp only [] at hrun
      by_cases hs : st.seen.contains cur.commit
      · rw [if_pos hs] at hrun
        refine ih _ _ _ _ ?_ hrun
        exact hrec
      · rw [if_neg hs] at hrun
        by_cases hfast : (useBloom && (env.numParents cur.commit == 1) &&
            canSkipCommit env cur.commit cur.paths) = true
        · rw [if_pos hfast] at hrun
          cases hpar : collectParents env cur.commit with
          | nil =>
            rw [hpar] at hrun
            injection hrun with h1; cases h1
          | cons p ps =>
            rw [hpar] at hrun
            simp only [] at hrun
            refine ih _ _ _ _ ?_ hrun
            exact hrec
        · rw [if_neg hfast] at hrun
          refine ih _ _ _ _ ?_ hrun
          exact processGeneral_result_preserves env cur _ _ path h hrec

/-- Witness for C5 at a concrete state whose result map holds an entry. -/
theorem result_never_overwritten_witness :
    alook (SearchState.mk [] [] [("x", 5)] []).result "x" = some 5 :=
  result_never_overwritten envC1 true 1
    ⟨[], [], [("x", 5)], []⟩ ⟨[], [], [("x", 5)], []⟩ "x" 5 (by decide) (by decide)

/-! ## C2: processing order and commit times -/

/-- C2 counterexample: in `envC2` the parent's commit time (5) exceeds the
child's (1), and the processed sequence is [1, 2] with strictly increasing
times — the dequeue order is not non-increasing for arbitrary commit
times. -/
theorem processed_times_increase_counterexample :
    searchTraceOf envC2 false 10 1 ["x"] = some [1, 2] ∧
    ¬ List.Pairwise (fun a b => envC2.commitTime b ≤ envC2.commitTime a) [1, 2] := by
  decide

theorem popMax_none_iff (env : HistEnv) (l : List CAP) : popMax env l = none ↔ l = [] := by
  constructor
  · intro h
    cases l with
    | nil => rfl
    | cons x xs =>
      exfalso
      simp only [popMax] at h
      cases hx : popMax env xs with
      | none => rw [hx] at h; cases h
      | some pr =>
        obtain ⟨m, rest⟩ := pr
        rw [hx] at h
        simp only [] at h
        split at h <;> cases h
  · intro h; subst h; rfl

theorem popMax_spec (env : HistEnv) :
    ∀ (l : List CAP) (e : CAP) (r : List CAP), popMax env l = some (e, r) →
      e ∈ l ∧ (∀ y ∈ l, env.commitTime y.commit ≤ env.commitTime e.commit) ∧
      (∀ y ∈ r, y ∈ l) := by
  intro l
  induction l with
  | nil => intro e r h; cases h
  | cons x xs ih =>
    intro e r h
    simp only [popMax] at h
    cases hx : popMax env xs with
    | none =>
      have hxs : xs = [] := (popMax_none_iff env xs).mp hx
      subst hxs
      rw [hx] at h
      injection h with h1
      injection h1 with he hr
      subst he; subst hr
      refine ⟨List.mem_cons_self _ _, ?_, ?_⟩
      · intro y hy
        rcases List.mem_cons.mp hy with rfl | hy
        · exact le_refl _
        · cases hy
      · intro y hy; cases hy
    | some pr =>
      obtain ⟨m, rest⟩ := pr
      rw [hx] at h
      simp only [] at h
      obtain ⟨hmmem, hmmax, hmsub⟩ := ih m rest hx
      split at h
      · next hle =>
        injection h with h1
        injection h1 with he hr
        subst he; subst hr
        refine ⟨List.mem_cons_self _ _, ?_, ?_⟩
        · intro y hy
          rcases List.mem_cons.mp hy with rfl | hy
          · exact le_refl _
          · exact le_trans (hmmax y hy) hle
        · intro y hy; exact List.mem_cons_of_mem _ hy
      · next hlt =>
        injection h with h1
        injection h1 with he hr
        subst he; subst hr
        refine ⟨List.mem_cons_of_mem _ hmmem, ?_, ?_⟩
        · intro y hy
          rcases List.mem_cons.mp hy with rfl | hy
          · exact le_of_lt (lt_of_not_le hlt)
          · exact hmmax y hy
        · intro y hy
          rcases List.mem_cons.mp hy with rfl | hy
          · exact List.mem_cons_self _ _
          · exact List.mem_cons_of_mem _ (hmsub y hy)

theorem collectParentsGo_mem (env : HistEnv) (c : Nat) :
    ∀ (n i p : Nat), p ∈ collectParentsGo env c n i →
      ∃ j, env.parentNode c j = .ok p := by
  intro n
  induction n with
  | zero => intro i p h; cases h
  | succ n ih =>
    intro i p h
    simp only [collectParentsGo] at h
    cases hpn : env.parentNode c i with
    | ok q =>
      rw [hpn] at h
      rcases List.mem_cons.mp h with rfl | hmem
      · exact ⟨i, hpn⟩
      · exact ih (i + 1) p hmem
    | error e => rw [hpn] at h; cases h

theorem collectParents_mem (env : HistEnv) (c p : Nat) (h : p ∈ collectParents env c) :
    ∃ j, env.parentNode c j = .ok p :=
  collectParentsGo_mem env c (env.numParents c) 0 p h

theorem buildPushes_commit_mem {seen : List Nat} {remaining : List String}
    {parents : List Nat} {maps : List (List (String × Nat))} {e : CAP}
    (h : e ∈ buildPushes seen remaining parents maps) : e.commit ∈ parents := by
  unfold buildPushes at h
  split at h
  · cases h
  · obtain ⟨pm, hpm, hfe⟩ := List.mem_filterMap.mp h
    obtain ⟨a, b⟩ := pm
    split at hfe
    · cases hfe
    · injection hfe with hfe
      subst hfe
      exact (List.of_mem_zip hpm).1

theorem processGeneral_heap (env : HistEnv) (cur : CAP) (parents : List Nat)
    (st : SearchState) :
    (processGeneral env cur parents st).heap =
      st.heap ++ buildPushes st.seen
        (classifyPaths cur ((computeMaps env cur.paths parents).1.take
          (computeMaps env cur.paths parents).2) st.result).2
        parents (computeMaps env cur.paths parents).1 := rfl

theorem searchLoop_trace_inv (env : HistEnv) (useBloom : Bool)
    (hmono : ∀ c i p, env.parentNode c i = .ok p → env.commitTime p ≤ env.commitTime c) :
    ∀ (fuel : Nat) (st st' : SearchState),
      List.Pairwise (fun a b => env.commitTime b ≤ env.commitTime a) st.trace →
      (∀ e ∈ st.heap, ∀ t ∈ st.trace, env.commitTime e.commit ≤ env.commitTime t) →
      searchLoop env useBloom fuel st = some (.ok st') →
      List.Pairwise (fun a b => env.commitTime b ≤ env.commitTime a) st'.trace := by
  intro fuel
  induction fuel with
  | zero => intro st st' _ _ hrun; cases hrun
  | succ fuel ih =>
    intro st st' hpw hhp hrun
    simp only [searchLoop] at hrun
    cases hpop : popMax env st.heap with
    | none =>
      rw [hpop] at hrun
      obtain rfl : st = st' := by injection hrun with h1; injection h1
      exact hpw
    | some cr =>
      obtain ⟨cur, rest⟩ := cr
      rw [hpop] at hrun
      simp only [] at hrun
      obtain ⟨hcmem, hcmax, hrsub⟩ := popMax_spec env st.heap cur rest hpop
      by_cases hs : st.seen.contains cur.commit
      · rw [if_pos hs] at hrun
        refine ih _ _ ?_ ?_ hrun
        · exact hpw
        · exact fun e he t ht => hhp e (hrsub e he) t ht
      · rw [if_neg hs] at hrun
        have hpw' : List.Pairwise (fun a b => env.commitTime b ≤ env.commitTime a)
            (st.trace ++ [cur.commit]) := by
          rw [List.pairwise_append]
          refine ⟨hpw, List.pairwise_singleton _ _, ?_⟩
          intro a ha b hb
          rw [List.mem_singleton.mp hb]
          exact hhp cur hcmem a ha
        have hrest' : ∀ e ∈ rest, ∀ t ∈ st.trace ++ [cur.commit],
            env.commitTime e.commit ≤ env.commitTime t := by
          intro e he t ht
          rcases List.mem_append.mp ht with ht | ht
          · exact hhp e (hrsub e he) t ht
          · rw [List.mem_singleton.mp ht]
            exact hcmax e (hrsub e he)
        by_cases hfast : (useBloom && (env.numParents cur.commit == 1) &&
            canSkipCommit env cur.commit cur.paths) = true
        · rw [if_pos hfast] at hrun
          cases hpar : collectParents env cur.commit with
          | nil =>
            rw [hpar] at hrun
            injection hrun with h1; cases h1
          | cons p ps =>
            rw [hpar] at hrun
            simp only [] at hrun
            refine ih _ _ ?_ ?_ hrun
            · exact hpw'
            intro e he t ht
            rcases List.mem_append.mp he with he | he
            · exact hrest' e he t ht
            · rw [List.mem_singleton.mp he]
              have hpmem : p ∈ collectParents env cur.commit := by
                rw [hpar]; exact List.mem_cons_self _ _
              obtain ⟨j, hj⟩ := collectParents_mem env cur.commit p hpmem
              have h1 : env.commitTime p ≤ env.commitTime cur.commit := hmono _ _ _ hj
              rcases List.mem_append.mp ht with ht | ht
              · exact le_trans h1 (hhp cur hcmem t ht)
              · rw [List.mem_singleton.mp ht]; exact h1
        · rw [if_neg hfast] at hrun
          refine ih _ _ ?_ ?_ hrun
          · exact hpw'
          intro e he t ht
          rw [processGeneral_heap] at he
          rcases List.mem_append.mp he with he | he
          · exact hrest' e he t ht
          · have hparm : e.commit ∈ collectParents env cur.commit := buildPushes_commit_mem he
            obtain ⟨j, hj⟩ := collectParents_mem env cur.commit e.commit hparm
            have h1 : env.commitTime e.commit ≤ env.commitTime cur.commit := hmono _ _ _ hj
            rcases List.mem_append.mp ht with ht | ht
            · exact le_trans h1 (hhp cur hcmem t ht)
            · rw [List.mem_singleton.mp ht]; exact h1

/-- C2 (amended): provided every parent's commit time is at most its child's
(commit times respect ancestry), the sequence of frontier entries popped and
processed (not skipped as already visited) within one invocation has
non-increasing commit times. Without that proviso the claim fails, because a
parent pushed with a later timestamp is popped after its earlier child (see
the counterexample). -/
theorem processed_times_nonincreasing (env : HistEnv) (useBloom : Bool) (fuel : Nat)
    (c : Nat) (paths : List String) (tr : List Nat)
    (hmono : ∀ cm i p, env.parentNode cm i = .ok p → env.commitTime p ≤ env.commitTime cm)
    (htr : searchTraceOf env useBloom fuel c paths = some tr) :
    List.Pairwise (fun a b => env.commitTime b ≤ env.commitTime a) tr := by
  unfold searchTraceOf at htr
  cases hfh : getFileHashes env c paths with
  | error e => rw [hfh] at htr; cases htr
  | ok init =>
    rw [hfh] at htr
    simp only [] at htr
    cases hrun : searchLoop env useBloom fuel ⟨[⟨c, paths, init⟩], [], [], []⟩ with
    | none => rw [hrun] at htr; cases htr
    | some g =>
      rw [hrun] at htr
      cases g with
      | fatal => cases htr
      | err e => cases htr
      | ok st =>
        injection htr with h1
        subst h1
        exact searchLoop_trace_inv env useBloom hmono fuel _ st List.Pairwise.nil
          (fun e he t ht => absurd ht (List.not_mem_nil t)) hrun

/-- Witness for C2's amended theorem on the ancestry-monotone chain. -/
theorem processed_times_nonincreasing_witness :
    List.Pairwise (fun a b => envC2w.commitTime b ≤ envC2w.commitTime a) [1, 2] :=
  processed_times_nonincreasing envC2w false 10 1 ["x"] [1, 2]
    (by
      intro cm i p h
      simp only [envC2w] at h ⊢
      split at h
      · next hc =>
        injection h with h'
        subst h'
        rcases hc with ⟨rfl, _⟩
        decide
      · cases h)
    (by decide)

/-! ## C4: merge-touched paths are deferred -/

theorem alook_append {κ ν : Type} [DecidableEq κ] (m l : List (κ × ν)) (k : κ) :
    alook (m ++ l) k =
      (match alook m k with
       | some v => some v
       | none => alook l k) := by
  induction m with
  | nil => simp [alook]
  | cons hd tl ih =>
    obtain ⟨k', v'⟩ := hd
    by_cases h : k' = k
    · simp [alook, h]
    · simp [alook, h, ih]

theorem alook_insertIfAbsent_ne (m : List (String × Nat)) (k path : String) (v : Nat)
    (hne : k ≠ path) : alook (insertIfAbsent m k v) path = alook m path := by
  unfold insertIfAbsent
  cases hk : alook m k with
  | some w => rfl
  | none =>
    rw [alook_append]
    cases hp : alook m path with
    | some w => rfl
    | none => simp [alook, hne]

theorem classifyStep_alook_other (cur : CAP) (okMaps : List (List (String × Nat)))
    (acc : List (String × Nat) × List String) (p path : String) (hne : p ≠ path) :
    alook (classifyStep cur okMaps acc p).1 path = alook acc.1 path := by
  unfold classifyStep
  split
  · exact alook_insertIfAbsent_ne _ _ _ _ hne
  · split
    · exact alook_insertIfAbsent_ne _ _ _ _ hne
    · rfl
  · rfl

theorem classifyStep_many (cur : CAP) (okMaps : List (List (String × Nat)))
    (acc : List (String × Nat) × List String) (path : String)
    (hc : 2 ≤ countPresent okMaps path) :
    classifyStep cur okMaps acc path = (acc.1, acc.2 ++ [path]) := by
  unfold classifyStep
  obtain ⟨n, hn⟩ := Nat.exists_eq_add_of_le hc
  rw [Nat.add_comm] at hn
  rw [hn]

theorem classify_foldl_alook_many (cur : CAP) (okMaps : List (List (String × Nat)))
    (path : String) (hc : 2 ≤ countPresent okMaps path) :
    ∀ (ps : List String) (acc : List (String × Nat) × List String),
      alook (ps.foldl (classifyStep cur okMaps) acc).1 path = alook acc.1 path := by
  intro ps
  induction ps with
  | nil => intro acc; rfl
  | cons p ps ih =>
    intro acc
    rw [List.foldl_cons, ih]
    by_cases hne : p = path
    · subst hne
      rw [classifyStep_many cur okMaps acc p hc]
    · exact classifyStep_alook_other cur okMaps acc p path hne

theorem classify_foldl_rem_mono (cur : CAP) (okMaps : List (List (String × Nat)))
    (path : String) :
    ∀ (ps : List String) (acc : List (String × Nat) × List String),
      path ∈ acc.2 → path ∈ (ps.foldl (classifyStep cur okMaps) acc).2 := by
  intro ps
  induction ps with
  | nil => exact fun acc h => h
  | cons p ps ih =>
    intro acc h
    rw [List.foldl_cons]
    apply ih
    unfold classifyStep
    split
    · exact h
    · split
      · exact h
      · exact List.mem_append_left _ h
    · exact List.mem_append_left _ h

theorem classify_foldl_rem_mem (cur : CAP) (okMaps : List (List (String × Nat)))
    (path : String) (hc : 2 ≤ countPresent okMaps path) :
    ∀ (ps : List String) (acc : List (String × Nat) × List String),
      path ∈ ps → path ∈ (ps.foldl (classifyStep cur okMaps) acc).2 := by
  intro ps
  induction ps with
  | nil => intro acc h; cases h
  | cons p ps ih =>
    intro acc h
    rcases List.mem_cons.mp h with rfl | hmem
    · rw [List.foldl_cons]
      apply classify_foldl_rem_mono
      rw [classifyStep_many cur okMaps acc path hc]
      exact List.mem_append_right _ (List.mem_singleton_self _)
    · rw [List.foldl_cons]
      exact ih _ hmem

theorem zip_get_mem {α β : Type} :
    ∀ (l1 : List α) (l2 : List β) (j : Nat) (h1 : j < l1.length) (h2 : j < l2.length),
      (l1.get ⟨j, h1⟩, l2.get ⟨j, h2⟩) ∈ l1.zip l2 := by
  intro l1
  induction l1 with
  | nil => intro l2 j h1 h2; exact absurd h1 (Nat.not_lt_zero j)
  | cons a l1 ih =>
    intro l2 j h1 h2
    cases l2 with
    | nil => exact absurd h2 (Nat.not_lt_zero j)
    | cons b l2 =>
      cases j with
      | zero => exact List.mem_cons_self _ _
      | succ j =>
        exact List.mem_cons_of_mem _
          (ih l2 j (Nat.lt_of_succ_lt_succ h1) (Nat.lt_of_succ_lt_succ h2))

/-- C4: in the general case of the loop body, a path present (non-sentinel
content hash) in more than one of the examined parents is never recorded at
the current commit — regardless of whether any parent's hash equals the
commit's own — and is instead carried in the frontier entry of every
unvisited parent that contains it. -/
theorem merge_path_deferred (env : HistEnv) (cur : CAP) (parents : List Nat)
    (st : SearchState) (path : String)
    (hmem : path ∈ cur.paths)
    (hcount : 2 ≤ countPresent ((computeMaps env cur.paths parents).1.take
      (computeMaps env cur.paths parents).2) path) :
    alook (processGeneral env cur parents st).result path = alook st.result path ∧
    (∀ j (hj : j < parents.length)
      (hj' : j < (computeMaps env cur.paths parents).1.length),
      st.seen.contains (parents.get ⟨j, hj⟩) = false →
      mget ((computeMaps env cur.paths parents).1.get ⟨j, hj'⟩) path ≠ 0 →
      ∃ e ∈ (processGeneral env cur parents st).heap,
        e.commit = parents.get ⟨j, hj⟩ ∧ path ∈ e.paths) := by
  constructor
  · exact classify_foldl_alook_many cur _ path hcount cur.paths (st.result, [])
  · intro j hj hj' hseen hnz
    have hrem : path ∈ (classifyPaths cur ((computeMaps env cur.paths parents).1.take
        (computeMaps env cur.paths parents).2) st.result).2 :=
      classify_foldl_rem_mem cur _ path hcount cur.paths (st.result, []) hmem
    have hnnil : (classifyPaths cur ((computeMaps env cur.paths parents).1.take
        (computeMaps env cur.paths parents).2) st.result).2 ≠ [] :=
      List.ne_nil_of_mem hrem
    refine ⟨⟨parents.get ⟨j, hj⟩,
      (classifyPaths cur ((computeMaps env cur.paths parents).1.take
        (computeMaps env cur.paths parents).2) st.result).2.filter
        (fun q => mget ((computeMaps env cur.paths parents).1.get ⟨j, hj'⟩) q != 0),
      (computeMaps env cur.paths parents).1.get ⟨j, hj'⟩⟩, ?_, rfl, ?_⟩
    · rw [processGeneral_heap]
      refine List.mem_append_right _ ?_
      unfold buildPushes
      rw [if_neg (by simpa using hnnil)]
      refine List.mem_filterMap.mpr ⟨(parents.get ⟨j, hj⟩,
        (computeMaps env cur.paths parents).1.get ⟨j, hj'⟩), zip_get_mem _ _ j hj hj', ?_⟩
      rw [hseen]
      simp
    · refine List.mem_filter.mpr ⟨hrem, ?_⟩
      simpa using hnz

/-- Witness for C4: at `envC4w` the path "x" is present in both parents of
the merge commit 1, is not recorded for it, and is deferred to the first
parent's frontier entry. -/
theorem merge_path_deferred_witness :
    alook (processGeneral envC4w ⟨1, ["x"], [("x", 8)]⟩ [2, 3] ⟨[], [1], [], [1]⟩).result "x" =
      alook (SearchState.mk [] [1] [] [1]).result "x" ∧
    ∃ e ∈ (processGeneral envC4w ⟨1, ["x"], [("x", 8)]⟩ [2, 3] ⟨[], [1], [], [1]⟩).heap,
      e.commit = 2 ∧ "x" ∈ e.paths := by
  have h := merge_path_deferred envC4w ⟨1, ["x"], [("x", 8)]⟩ [2, 3] ⟨[], [1], [], [1]⟩ "x"
    (by decide) (by decide)
  exact ⟨h.1, h.2 0 (by decide) (by decide) (by decide) (by decide)⟩

/-! ## C3: the Bloom fast path versus the general case -/

/-- C3 counterexample: in `envC3` every Bloom filter satisfies the
no-false-negative hypothesis (the two trees are identical, so no path's
content differs), yet the run with the fast path resolves the queried path
"x" — absent from the starting tree — at the root commit 2, while the run
without the fast path resolves it at the start commit 1. The two runs return
different mappings, so the fast path is not a pure optimization as claimed. -/
theorem bloom_fast_path_counterexample :
    bloomSound envC3 ∧
    getLastCommitForPaths envC3 true 10 1 ["x"] = some (.ok [("x", 2)]) ∧
    getLastCommitForPaths envC3 false 10 1 ["x"] = some (.ok [("x", 1)]) ∧
    ([(("x" : String), (2 : Nat))] ≠ [("x", 1)]) := by
  refine ⟨?_, by decide, by decide, by decide⟩
  intro c b p s hb hp hdiff
  exact absurd rfl hdiff

theorem alook_buildMap (t : TreeObj) :
    ∀ (paths : List String) (s : String),
      alook (buildMap t paths) s =
        if s ∈ paths then (if s = "" then some t.hash else alook t.entries s) else none := by
  intro paths
  induction paths with
  | nil => intro s; simp [buildMap, alook]
  | cons p ps ih =>
    intro s
    simp only [buildMap]
    rw [alook_append]
    by_cases hps : p = s
    · subst hps
      by_cases hpe : p = ""
      · simp [hpe, alook, List.mem_cons]
      · cases he : alook t.entries p with
        | some h => simp [hpe, he, alook, List.mem_cons]
        | none => simp [hpe, he, alook, ih, List.mem_cons]
    · have hsp : ¬ (s = p) := fun h => hps h.symm
      by_cases hpe : p = ""
      · have h1 : ¬ ("" = s) := fun h => hps (hpe.trans h)
        have h2 : ¬ (s = "") := fun h => hsp (h.trans hpe.symm)
        simp [hpe, alook, List.mem_cons, ih, hsp, hps, h1, h2]
      · cases he : alook t.entries p with
        | some h => simp [hpe, he, alook, List.mem_cons, ih, hsp, hps]
        | none => simp [hpe, he, alook, List.mem_cons, ih, hsp, hps]

/-- C3 (amended): the fast path agrees with the general case stepwise, under
the conditions the counterexample shows necessary: at a single-parent commit
with a sound Bloom filter reporting no active path changed, whose frontier
entry carries a nonempty path set whose hashes are the (present,
non-sentinel) contents at that commit, and whose parent is unvisited, the
general case records no answers and pushes exactly the entry the fast path
pushes: same commit, same path set, pointwise-equal hashes. -/
theorem bloom_fast_path_step_equiv (env : HistEnv) (cur : CAP) (p : Nat)
    (st : SearchState)
    (hb : bloomSound env)
    (hnp : env.numParents cur.commit = 1)
    (hp0 : env.parentNode cur.commit 0 = .ok p)
    (hskip : canSkipCommit env cur.commit cur.paths = true)
    (hpres : ∀ s ∈ cur.paths, mget cur.hashes s = contentAt env cur.commit s ∧
      contentAt env cur.commit s ≠ 0)
    (hne : cur.paths ≠ [])
    (hseen : st.seen.contains p = false) :
    collectParents env cur.commit = [p] ∧
    ∃ m, getFileHashes env p cur.paths = .ok m ∧
      processGeneral env cur [p] st = { st with heap := st.heap ++ [⟨p, cur.paths, m⟩] } ∧
      (∀ s ∈ cur.paths, mget m s = mget cur.hashes s ∧ mget m s ≠ 0) := by
  have hcp : collectParents env cur.commit = [p] := by
    unfold collectParents
    rw [hnp]
    unfold collectParentsGo
    rw [hp0]
    rfl
  cases hbl : env.bloom cur.commit with
  | none =>
    unfold canSkipCommit at hskip
    rw [hbl] at hskip
    cases hskip
  | some b =>
    unfold canSkipCommit at hskip
    rw [hbl] at hskip
    have hall := List.all_eq_true.mp hskip
    have hfalse : ∀ s ∈ cur.paths, b (fullPathOf env.treePath s) = false := by
      intro s hs
      have hx := hall s hs
      simpa using hx
    have hsame : ∀ s ∈ cur.paths, contentAt env cur.commit s = contentAt env p s := by
      intro s hs
      by_contra hne'
      have hx := hb cur.commit b p s hbl hp0 hne'
      rw [hfalse s hs] at hx
      cases hx
    obtain ⟨s0, hs0⟩ := List.exists_mem_of_ne_nil cur.paths hne
    have hc0 : contentAt env p s0 ≠ 0 := by
      rw [← hsame s0 hs0]
      exact (hpres s0 hs0).2
    cases htp : env.tree p with
    | error e =>
      exfalso
      apply hc0
      unfold contentAt
      rw [htp]
    | ok tp =>
      have hgf : getFileHashes env p cur.paths = .ok (buildMap tp cur.paths) := by
        unfold getFileHashes
        rw [htp]
      have hmg : ∀ s ∈ cur.paths, mget (buildMap tp cur.paths) s = contentAt env p s := by
        intro s hs
        unfold mget
        rw [alook_buildMap tp cur.paths s, if_pos hs]
        unfold contentAt
        rw [htp]
        by_cases hse : s = ""
        · simp [hse]
        · simp [hse]
      have hmm : ∀ s ∈ cur.paths, mget (buildMap tp cur.paths) s = mget cur.hashes s ∧
          mget (buildMap tp cur.paths) s ≠ 0 := by
        intro s hs
        constructor
        · rw [hmg s hs, ← hsame s hs, (hpres s hs).1]
        · rw [hmg s hs, ← hsame s hs]
          exact (hpres s hs).2
      have hcm : computeMaps env cur.paths [p] = ([buildMap tp cur.paths], 1) := by
        unfold computeMaps
        rw [hgf]
        rfl
      have hcount : ∀ s ∈ cur.paths, countPresent [buildMap tp cur.paths] s = 1 := by
        intro s hs
        have hx : (mget (buildMap tp cur.paths) s != 0) = true := by
          simpa using (hmm s hs).2
        simp [countPresent, List.countP_cons, hx]
      have hch : ∀ s ∈ cur.paths, anyChanged [buildMap tp cur.paths] cur.hashes s = false := by
        intro s hs
        simp [anyChanged, List.any_cons, (hmm s hs).1]
      have hclass : ∀ (ps : List String) (acc : List (String × Nat) × List String),
          (∀ s ∈ ps, countPresent [buildMap tp cur.paths] s = 1 ∧
            anyChanged [buildMap tp cur.paths] cur.hashes s = false) →
          ps.foldl (classifyStep cur [buildMap tp cur.paths]) acc = (acc.1, acc.2 ++ ps) := by
        intro ps
        induction ps with
        | nil => intro acc _; simp
        | cons q qs ih =>
          intro acc hall'
          rw [List.foldl_cons]
          have h1 := (hall' q (List.mem_cons_self _ _)).1
          have h2 := (hall' q (List.mem_cons_self _ _)).2
          have hstep : classifyStep cur [buildMap tp cur.paths] acc q = (acc.1, acc.2 ++ [q]) := by
            unfold classifyStep
            rw [h1, h2]
            simp
          rw [hstep, ih _ (fun s hs => hall' s (List.mem_cons_of_mem _ hs))]
          simp
      have hcl : classifyPaths cur [buildMap tp cur.paths] st.result = (st.result, cur.paths) := by
        unfold classifyPaths
        rw [hclass cur.paths (st.result, []) (fun s hs => ⟨hcount s hs, hch s hs⟩)]
        simp
      have hfil : cur.paths.filter (fun q => mget (buildMap tp cur.paths) q != 0) = cur.paths :=
        List.filter_eq_self.mpr (fun s hs => by simpa using (hmm s hs).2)
      have hpush : buildPushes st.seen cur.paths [p] [buildMap tp cur.paths] =
          [⟨p, cur.paths, buildMap tp cur.paths⟩] := by
        have hseen' : p ∉ st.seen := by simpa using hseen
        unfold buildPushes
        rw [if_neg (by simpa using hne)]
        simp [List.filterMap_cons, hseen', hfil]
      have hpg : processGeneral env cur [p] st =
          { st with heap := st.heap ++ [⟨p, cur.paths, buildMap tp cur.paths⟩] } := by
        simp only [processGeneral]
        rw [hcm]
        simp only [List.take_succ_cons, List.take_nil]
        rw [hcl]
        simp only []
        rw [hpush]
      exact ⟨hcp, buildMap tp cur.paths, hgf, hpg, hmm⟩

/-- Witness for C3's amended theorem at `envC3w`: the general step at commit
1 pushes exactly the entry the fast path would push for parent 2. -/
theorem bloom_fast_path_step_equiv_witness :
    collectParents envC3w 1 = [2] ∧
    ∃ m, getFileHashes envC3w 2 ["x"] = .ok m ∧
      processGeneral envC3w ⟨1, ["x"], [("x", 7)]⟩ [2] ⟨[], [1], [], [1]⟩ =
        { (⟨[], [1], [], [1]⟩ : SearchState) with heap := [] ++ [⟨2, ["x"], m⟩] } ∧
      (∀ s ∈ (["x"] : List String), mget m s = mget [("x", 7)] s ∧ mget m s ≠ 0) :=
  bloom_fast_path_step_equiv envC3w ⟨1, ["x"], [("x", 7)]⟩ 2 ⟨[], [1], [], [1]⟩
    (fun c b p s hb hp hdiff => absurd rfl hdiff)
    (by decide) (by decide) (by decide) (by decide) (by decide) (by decide)

/-! ## C10: the zero-hash sentinel -/

theorem alook_filter_key {P : String → Bool} :
    ∀ (m : List (String × Nat)) (p : String),
      alook (m.filter (fun e => P e.1)) p = if P p then alook m p else none := by
  intro m
  induction m with
  | nil => intro p; simp [alook]
  | cons hd tl ih =>
    intro p
    obtain ⟨k, v⟩ := hd
    by_cases hP : P k
    · rw [List.filter_cons_of_pos (by simpa using hP)]
      by_cases hkp : k = p
      · subst hkp
        simp [alook, hP]
      · simp [alook, hkp, ih]
    · rw [List.filter_cons_of_neg (by simpa using hP)]
      by_cases hkp : k = p
      · subst hkp
        simp [alook, hP, ih]
      · simp [alook, hkp, ih]

theorem mget_buildMap_strip (t : TreeObj) (paths : List String) (s : String) :
    mget (buildMap (stripTree t) paths) s = mget (buildMap t paths) s := by
  unfold mget
  rw [alook_buildMap, alook_buildMap]
  by_cases hs : s ∈ paths
  · rw [if_pos hs, if_pos hs]
    by_cases hse : s = ""
    · rw [if_pos hse, if_pos hse]; rfl
    · rw [if_neg hse, if_neg hse]
      have hst : alook (stripTree t).entries s =
          if (alook t.entries s != some 0) = true then alook t.entries s else none :=
        alook_filter_key (P := fun k => alook t.entries k != some 0) t.entries s
      rw [hst]
      cases he : alook t.entries s with
      | none => simp
      | some v =>
        by_cases hv : v = 0
        · subst hv
          simp
        · simp [hv]
  · rw [if_neg hs, if_neg hs]

theorem getFileHashes_strip (env : HistEnv) (c : Nat) (paths : List String) :
    (∃ e, getFileHashes env c paths = .error e ∧
      getFileHashes (stripEnv env) c paths = .error e) ∨
    (∃ m m', getFileHashes env c paths = .ok m ∧
      getFileHashes (stripEnv env) c paths = .ok m' ∧ mapsEqD m' m) := by
  have hts : (stripEnv env).tree c = (env.tree c).map stripTree := rfl
  unfold getFileHashes
  rw [hts]
  cases ht : env.tree c with
  | error e =>
    cases e with
    | dirNotFound => right; exact ⟨[], [], rfl, rfl, fun s => rfl⟩
    | objectNotFound => left; exact ⟨.objectNotFound, rfl, rfl⟩
    | parentNotFound => left; exact ⟨.parentNotFound, rfl, rfl⟩
    | decodeErr => left; exact ⟨.decodeErr, rfl, rfl⟩
  | ok t =>
    right
    exact ⟨buildMap t paths, buildMap (stripTree t) paths, rfl, rfl,
      fun s => mget_buildMap_strip t paths s⟩

theorem popMax_congr (e1 e2 : HistEnv) (h : ∀ c, e1.commitTime c = e2.commitTime c) :
    ∀ l, popMax e1 l = popMax e2 l := by
  intro l
  induction l with
  | nil => rfl
  | cons x xs ih => simp only [popMax, ih, h]

theorem popMax_strip (env : HistEnv) (l : List CAP) :
    popMax (stripEnv env) l = popMax env l :=
  popMax_congr (stripEnv env) env (fun _ => rfl) l

theorem collectParentsGo_congr (e1 e2 : HistEnv)
    (hpn : ∀ c i, e1.parentNode c i = e2.parentNode c i) (c : Nat) :
    ∀ n i, collectParentsGo e1 c n i = collectParentsGo e2 c n i := by
  intro n
  induction n with
  | zero => intro i; rfl
  | succ n ih => intro i; simp only [collectParentsGo, hpn, ih]

theorem collectParents_strip (env : HistEnv) (c : Nat) :
    collectParents (stripEnv env) c = collectParents env c := by
  unfold collectParents
  exact collectParentsGo_congr (stripEnv env) env (fun _ _ => rfl) c _ 0

theorem postGo_congr (e1 e2 : HistEnv) (h : ∀ c, e1.materialize c = e2.materialize c) :
    ∀ (r : List (String × Nat)) (acc : List (String × Nat)),
      postGo e1 acc r = postGo e2 acc r := by
  intro r
  induction r with
  | nil => intro acc; rfl
  | cons pr rest ih =>
    intro acc
    obtain ⟨p, hsh⟩ := pr
    simp only [postGo, h, ih]

theorem forall₂_append_rel {α β : Type} {R : α → β → Prop} :
    ∀ {l1 : List α} {l2 : List β}, List.Forall₂ R l1 l2 →
      ∀ {u1 : List α} {u2 : List β}, List.Forall₂ R u1 u2 →
        List.Forall₂ R (l1 ++ u1) (l2 ++ u2) := by
  intro l1 l2 h
  induction h with
  | nil => intro u1 u2 hu; exact hu
  | cons hR hF ih => intro u1 u2 hu; exact List.Forall₂.cons hR (ih hu)

theorem forall₂_take_rel {α β : Type} {R : α → β → Prop} :
    ∀ (n : Nat) {l1 : List α} {l2 : List β}, List.Forall₂ R l1 l2 →
      List.Forall₂ R (l1.take n) (l2.take n) := by
  intro n
  induction n with
  | zero => intro l1 l2 _; simp only [List.take]; exact List.Forall₂.nil
  | succ n ih =>
    intro l1 l2 h
    cases h with
    | nil => simp only [List.take]; exact List.Forall₂.nil
    | cons hR hF => simpa [List.take] using List.Forall₂.cons hR (ih hF)

theorem computeMaps_strip (env : HistEnv) (paths : List String) :
    ∀ parents : List Nat,
      (computeMaps (stripEnv env) paths parents).2 = (computeMaps env paths parents).2 ∧
      List.Forall₂ mapsEqD (computeMaps (stripEnv env) paths parents).1
        (computeMaps env paths parents).1 := by
  intro parents
  induction parents with
  | nil => exact ⟨rfl, List.Forall₂.nil⟩
  | cons p ps ih =>
    rcases getFileHashes_strip env p paths with ⟨e, he, he'⟩ | ⟨m, m', hm, hm', hEq⟩
    · constructor
      · simp only [computeMaps, he, he']
      · simp only [computeMaps, he, he']
        refine List.Forall₂.cons (fun s => rfl) ?_
        exact List.forall₂_same.mpr (fun x _ => fun s => rfl)
    · constructor
      · simp only [computeMaps, hm, hm', ih.1]
      · simp only [computeMaps, hm, hm']
        exact List.Forall₂.cons hEq ih.2

theorem countPresent_congr {l1 l2 : List (List (String × Nat))}
    (h : List.Forall₂ mapsEqD l1 l2) (s : String) :
    countPresent l1 s = countPresent l2 s := by
  induction h with
  | nil => rfl
  | @cons a b t1 t2 hR hF ih =>
    simp only [countPresent, List.countP_cons] at ih ⊢
    rw [ih, hR s]

theorem anyChanged_congr {l1 l2 : List (List (String × Nat))}
    (h : List.Forall₂ mapsEqD l1 l2) {h1 h2 : List (String × Nat)} (hh : mapsEqD h1 h2)
    (s : String) : anyChanged l1 h1 s = anyChanged l2 h2 s := by
  induction h with
  | nil => rfl
  | @cons a b t1 t2 hR hF ih =>
    simp only [anyChanged, List.any_cons] at ih ⊢
    rw [ih, hR s, hh s]

theorem classifyStep_congr {c : Nat} {ps1 ps2 : List String}
    {h1 h2 : List (String × Nat)} (hh : mapsEqD h1 h2)
    {ok1 ok2 : List (List (String × Nat))} (hok : List.Forall₂ mapsEqD ok1 ok2)
    (acc : List (String × Nat) × List String) (p : String) :
    classifyStep ⟨c, ps1, h1⟩ ok1 acc p = classifyStep ⟨c, ps2, h2⟩ ok2 acc p := by
  unfold classifyStep
  rw [countPresent_congr hok p, anyChanged_congr hok hh p]

theorem classify_congr {c : Nat} {ps1 ps2 : List String}
    {h1 h2 : List (String × Nat)} (hh : mapsEqD h1 h2)
    {ok1 ok2 : List (List (String × Nat))} (hok : List.Forall₂ mapsEqD ok1 ok2) :
    ∀ (qs : List String) (acc : List (String × Nat) × List String),
      qs.foldl (classifyStep ⟨c, ps1, h1⟩ ok1) acc =
        qs.foldl (classifyStep ⟨c, ps2, h2⟩ ok2) acc := by
  intro qs
  induction qs with
  | nil => intro acc; rfl
  | cons q qs ih =>
    intro acc
    rw [List.foldl_cons, List.foldl_cons, classifyStep_congr hh hok, ih]

theorem buildPushes_zip_rel (seen : List Nat) (remaining : List String) :
    ∀ (parents : List Nat) (maps1 maps2 : List (List (String × Nat))),
      List.Forall₂ mapsEqD maps1 maps2 →
      List.Forall₂ capRel
        ((parents.zip maps1).filterMap (fun pm =>
          if seen.contains pm.1 then none
          else some ⟨pm.1, remaining.filter (fun path => mget pm.2 path != 0), pm.2⟩))
        ((parents.zip maps2).filterMap (fun pm =>
          if seen.contains pm.1 then none
          else some ⟨pm.1, remaining.filter (fun path => mget pm.2 path != 0), pm.2⟩)) := by
  intro parents
  induction parents with
  | nil => intro maps1 maps2 _; exact List.Forall₂.nil
  | cons p ps ih =>
    intro maps1 maps2 h
    cases h with
    | nil => exact List.Forall₂.nil
    | @cons m1 m2 ms1 ms2 hR hF =>
      simp only [List.zip_cons_cons, List.filterMap_cons]
      by_cases hs : seen.contains p
      · simp only [if_pos hs]
        exact ih _ _ hF
      · simp only [if_neg hs]
        refine List.Forall₂.cons ⟨rfl, ?_, hR⟩ (ih _ _ hF)
        exact List.filter_congr (fun s _ => by rw [hR s])

theorem buildPushes_rel (seen : List Nat) (remaining : List String)
    (parents : List Nat) {maps1 maps2 : List (List (String × Nat))}
    (h : List.Forall₂ mapsEqD maps1 maps2) :
    List.Forall₂ capRel (buildPushes seen remaining parents maps1)
      (buildPushes seen remaining parents maps2) := by
  unfold buildPushes
  split
  · exact List.Forall₂.nil
  · exact buildPushes_zip_rel seen remaining parents maps1 maps2 h

theorem processGeneral_result (env : HistEnv) (cur : CAP) (parents : List Nat)
    (st : SearchState) :
    (processGeneral env cur parents st).result =
      (classifyPaths cur ((computeMaps env cur.paths parents).1.take
        (computeMaps env cur.paths parents).2) st.result).1 := rfl

theorem processGeneral_seen (env : HistEnv) (cur : CAP) (parents : List Nat)
    (st : SearchState) : (processGeneral env cur parents st).seen = st.seen := rfl

theorem processGeneral_trace (env : HistEnv) (cur : CAP) (parents : List Nat)
    (st : SearchState) : (processGeneral env cur parents st).trace = st.trace := rfl

theorem processGeneral_rel (env : HistEnv) (c : Nat) (ps : List String)
    (hs1 hs2 : List (String × Nat)) (hh : mapsEqD hs1 hs2)
    (st1 st2 : SearchState) (hst : stRel st1 st2) (parents : List Nat) :
    stRel (processGeneral (stripEnv env) ⟨c, ps, hs1⟩ parents st1)
      (processGeneral env ⟨c, ps, hs2⟩ parents st2) := by
  obtain ⟨hhp, hsn, hrs, htr⟩ := hst
  have hcm := computeMaps_strip env ps parents
  have hok : List.Forall₂ mapsEqD
      ((computeMaps (stripEnv env) ps parents).1.take (computeMaps (stripEnv env) ps parents).2)
      ((computeMaps env ps parents).1.take (computeMaps env ps parents).2) := by
    rw [hcm.1]
    exact forall₂_take_rel _ hcm.2
  have hclassEq : classifyPaths ⟨c, ps, hs1⟩
      ((computeMaps (stripEnv env) ps parents).1.take (computeMaps (stripEnv env) ps parents).2)
      st1.result =
    classifyPaths ⟨c, ps, hs2⟩
      ((computeMaps env ps parents).1.take (computeMaps env ps parents).2) st2.result := by
    unfold classifyPaths
    rw [hrs]
    exact classify_congr hh hok ps (st2.result, [])
  refine ⟨?_, ?_, ?_, ?_⟩
  · rw [processGeneral_heap, processGeneral_heap]
    refine forall₂_append_rel hhp ?_
    rw [hclassEq, hsn]
    exact buildPushes_rel st2.seen _ parents hcm.2
  · rw [processGeneral_seen, processGeneral_seen]; exact hsn
  · rw [processGeneral_result, processGeneral_result, hclassEq]
  · rw [processGeneral_trace, processGeneral_trace]; exact htr

theorem popMax_rel (env : HistEnv) :
    ∀ {l1 l2 : List CAP}, List.Forall₂ capRel l1 l2 →
      (popMax env l1 = none ∧ popMax env l2 = none) ∨
      (∃ e1 r1 e2 r2, popMax env l1 = some (e1, r1) ∧ popMax env l2 = some (e2, r2) ∧
        capRel e1 e2 ∧ List.Forall₂ capRel r1 r2) := by
  intro l1 l2 h
  induction h with
  | nil => left; exact ⟨rfl, rfl⟩
  | @cons x1 x2 xs1 xs2 hR hF ih =>
    right
    rcases ih with ⟨hn1, hn2⟩ | ⟨m1, r1, m2, r2, hm1, hm2, hmR, hrR⟩
    · refine ⟨x1, [], x2, [], ?_, ?_, hR, List.Forall₂.nil⟩
      · simp only [popMax, hn1]
      · simp only [popMax, hn2]
    · have hcomm : m1.commit = m2.commit := hmR.1
      have hxcomm : x1.commit = x2.commit := hR.1
      by_cases hle : env.commitTime m1.commit ≤ env.commitTime x1.commit
      · refine ⟨x1, xs1, x2, xs2, ?_, ?_, hR, hF⟩
        · simp only [popMax, hm1, if_pos hle]
        · have hle2 : env.commitTime m2.commit ≤ env.commitTime x2.commit := by
            rw [← hcomm, ← hxcomm]; exact hle
          simp only [popMax, hm2, if_pos hle2]
      · refine ⟨m1, x1 :: r1, m2, x2 :: r2, ?_, ?_, hmR, List.Forall₂.cons hR hrR⟩
        · simp only [popMax, hm1, if_neg hle]
        · have hle2 : ¬ env.commitTime m2.commit ≤ env.commitTime x2.commit := by
            rw [← hcomm, ← hxcomm]; exact hle
          simp only [popMax, hm2, if_neg hle2]

theorem searchLoop_rel (env : HistEnv) (useBloom : Bool) :
    ∀ (fuel : Nat) (st1 st2 : SearchState), stRel st1 st2 →
      outRel (searchLoop (stripEnv env) useBloom fuel st1)
        (searchLoop env useBloom fuel st2) := by
  intro fuel
  induction fuel with
  | zero => intro st1 st2 _; exact trivial
  | succ fuel ih =>
    intro st1 st2 hst
    obtain ⟨hhp, hsn, hrs, htr⟩ := hst
    simp only [searchLoop]
    rw [popMax_strip env st1.heap]
    rcases popMax_rel env hhp with ⟨hn1, hn2⟩ |
      ⟨cur1, rest1, cur2, rest2, hp1, hp2, hcR, hrR⟩
    · rw [hn1, hn2]
      exact ⟨hhp, hsn, hrs, htr⟩
    · rw [hp1, hp2]
      simp only []
      obtain ⟨c1, ps1, h1⟩ := cur1
      obtain ⟨c2, ps2, h2⟩ := cur2
      obtain ⟨hc, hp, hh⟩ := hcR
      simp only [] at hc hp
      subst hc
      subst hp
      rw [hsn, hrs, htr]
      by_cases hs : st2.seen.contains c1
      · rw [if_pos hs, if_pos hs]
        exact ih _ _ ⟨hrR, rfl, rfl, rfl⟩
      · rw [if_neg hs, if_neg hs]
        rw [show (stripEnv env).numParents = env.numParents from rfl]
        rw [show canSkipCommit (stripEnv env) = canSkipCommit env from rfl]
        rw [collectParents_strip env c1]
        by_cases hfast : (useBloom && (env.numParents c1 == 1) &&
            canSkipCommit env c1 ps1) = true
        · rw [if_pos hfast, if_pos hfast]
          cases hpar : collectParents env c1 with
          | nil => exact trivial
          | cons p ps' =>
            simp only []
            refine ih _ _ ⟨?_, rfl, rfl, rfl⟩
            exact forall₂_append_rel hrR
              (List.Forall₂.cons ⟨rfl, rfl, hh⟩ List.Forall₂.nil)
        · rw [if_neg hfast, if_neg hfast]
          exact ih
            (processGeneral (stripEnv env) ⟨c1, ps1, h1⟩ (collectParents env c1)
              ⟨rest1, c1 :: st2.seen, st2.result, st2.trace ++ [c1]⟩)
            (processGeneral env ⟨c1, ps1, h2⟩ (collectParents env c1)
              ⟨rest2, c1 :: st2.seen, st2.result, st2.trace ++ [c1]⟩)
            (processGeneral_rel env c1 ps1 h1 h2 hh
              ⟨rest1, c1 :: st2.seen, st2.result, st2.trace ++ [c1]⟩
              ⟨rest2, c1 :: st2.seen, st2.result, st2.trace ++ [c1]⟩
              ⟨hrR, rfl, rfl, rfl⟩ (collectParents env c1))

/-- C10: the engine's sentinel for an absent path is the all-zero hash:
`getFileHashes` omits absent paths from its map (first conjunct), all
presence tests compare map reads against the zero hash, and consequently a
whole `getLastCommitForPaths` run returns exactly the same outcome when
every tree entry whose content hash is the zero hash is removed — such an
entry is treated exactly as if the path did not exist in that commit. -/
theorem zero_hash_sentinel (env : HistEnv) (useBloom : Bool) (fuel : Nat)
    (c : Nat) (paths : List String) :
    (∀ (t : TreeObj) (s : String) (qs : List String), s ≠ "" →
      alook t.entries s = none → alook (buildMap t qs) s = none) ∧
    getLastCommitForPaths (stripEnv env) useBloom fuel c paths =
      getLastCommitForPaths env useBloom fuel c paths := by
  constructor
  · intro t s qs hs hnone
    rw [alook_buildMap]
    by_cases hq : s ∈ qs
    · rw [if_pos hq, if_neg hs]
      exact hnone
    · rw [if_neg hq]
  · unfold getLastCommitForPaths
    rcases getFileHashes_strip env c paths with ⟨e, he, he'⟩ | ⟨m, m', hm, hm', hEq⟩
    · rw [he, he']
    · rw [hm, hm']
      simp only []
      have hloop := searchLoop_rel env useBloom fuel ⟨[⟨c, paths, m'⟩], [], [], []⟩
        ⟨[⟨c, paths, m⟩], [], [], []⟩
        ⟨List.Forall₂.cons ⟨rfl, rfl, hEq⟩ List.Forall₂.nil, rfl, rfl, rfl⟩
      cases hl1 : searchLoop (stripEnv env) useBloom fuel ⟨[⟨c, paths, m'⟩], [], [], []⟩ with
      | none =>
        cases hl2 : searchLoop env useBloom fuel ⟨[⟨c, paths, m⟩], [], [], []⟩ with
        | none => rfl
        | some g2 =>
          rw [hl1, hl2] at hloop
          cases g2 with
          | fatal => cases hloop
          | err e2 => cases hloop
          | ok s2 => cases hloop
      | some g1 =>
        cases hl2 : searchLoop env useBloom fuel ⟨[⟨c, paths, m⟩], [], [], []⟩ with
        | none =>
          rw [hl1, hl2] at hloop
          cases g1 with
          | fatal => cases hloop
          | err e1 => cases hloop
          | ok s1 => cases hloop
        | some g2 =>
          rw [hl1, hl2] at hloop
          cases g1 with
          | fatal =>
            cases g2 with
            | fatal => rfl
            | err e2 => cases hloop
            | ok s2 => cases hloop
          | err e1 =>
            cases g2 with
            | fatal => cases hloop
            | err e2 => rw [show e1 = e2 from hloop]
            | ok s2 => cases hloop
          | ok s1 =>
            cases g2 with
            | fatal => cases hloop
            | err e2 => cases hloop
            | ok s2 =>
              obtain ⟨_, _, hres, _⟩ := hloop
              simp only []
              rw [hres, postGo_congr (stripEnv env) env (fun _ => rfl) s2.result []]
